import Mathlib

/-!
Verification of the pterm repository (a terminal session daemon) against its
natural-language specification, via a shallow embedding of the Rust sources
in Lean 4.  Bytes are modelled as natural numbers; machine-integer overflow
is made explicit with `% 2^w`; fallible operations (Rust panics) return
`Option`.  Each definition mirrors one function of the source tree
(crate `pterm_proto` in proto/src/lib.rs, and src/buffer.rs, src/server.rs,
src/session.rs, src/bridge.rs).
-/

namespace Pterm

/-! ## Wire protocol (proto/src/lib.rs) -/

/-- Client → daemon message type: forward keyboard input to the pty. -/
def client.INPUT : Nat := 0x01

/-- Client → daemon message type: resize the pty. -/
def client.RESIZE : Nat := 0x02

/-- Client → daemon message type: graceful detach request. -/
def client.DETACH : Nat := 0x03

/-- Daemon → client message type: pty output bytes. -/
def server.OUTPUT : Nat := 0x01

/-- Daemon → client message type: child process exited. -/
def server.EXIT : Nat := 0x02

/-- Daemon → client message type: scrollback dump on initial attach. -/
def server.SCROLLBACK : Nat := 0x80

/-- Little-endian byte decomposition of a `u32` value (`u32::to_le_bytes`).
The argument is reduced modulo `2^32` by the byte extraction itself. -/
def u32ToLeBytes (n : Nat) : List Nat :=
  [n % 256, n / 256 % 256, n / 65536 % 256, n / 16777216 % 256]

/-- Little-endian recomposition of four bytes (`u32::from_le_bytes`). -/
def leU32 (b0 b1 b2 b3 : Nat) : Nat :=
  b0 + 256 * b1 + 65536 * b2 + 16777216 * b3

/-- Little-endian byte decomposition of a `u16` value (`u16::to_le_bytes`). -/
def u16ToLeBytes (n : Nat) : List Nat :=
  [n % 256, n / 256 % 256]

/-- Little-endian recomposition of two bytes (`u16::from_le_bytes`). -/
def leU16 (b0 b1 : Nat) : Nat :=
  b0 + 256 * b1

/-- Header size: 1 byte type + 4 bytes length (`proto::HEADER_SIZE`). -/
def HEADER_SIZE : Nat := 5

/-- `proto::encode`: frame a message as `[type] [length: u32 LE] [payload]`.
The Rust cast `payload.len() as u32` silently truncates modulo `2^32`. -/
def encode (msg_type : Nat) (payload : List Nat) : List Nat :=
  msg_type :: (u32ToLeBytes (payload.length % 4294967296) ++ payload)

/-- `proto::decode_header`: parse the five header bytes into
`(msg_type, payload_length)`. -/
def decode_header (header : List Nat) : Nat × Nat :=
  (header.getD 0 0,
   leU32 (header.getD 1 0) (header.getD 2 0) (header.getD 3 0) (header.getD 4 0))

/-- `proto::encode_resize`: `[cols: u16 LE] [rows: u16 LE]`. -/
def encode_resize (cols rows : Nat) : List Nat :=
  u16ToLeBytes cols ++ u16ToLeBytes rows

/-- `proto::decode_resize`: recover `(cols, rows)` from a 4-byte payload. -/
def decode_resize (payload : List Nat) : Nat × Nat :=
  (leU16 (payload.getD 0 0) (payload.getD 1 0),
   leU16 (payload.getD 2 0) (payload.getD 3 0))

/-- Recomposing the four little-endian bytes of `n` yields `n % 2^32`. -/
lemma leU32_u32ToLeBytes (n : Nat) :
    leU32 (n % 256) (n / 256 % 256) (n / 65536 % 256) (n / 16777216 % 256)
      = n % 4294967296 := by
  unfold leU32
  omega

/-- C5: for every message type `t ≤ 255` and payload `p` with `|p| < 2^32`,
`encode t p` has length `HEADER_SIZE + |p|` (an empty payload still carries a
length field, of value 0), `decode_header` of its first five bytes returns
`(t, |p|)`, and the bytes from offset 5 onward are exactly `p`. -/
theorem encode_decode_header_roundtrip (t : Nat) (p : List Nat)
    (ht : t ≤ 255) (hp : p.length < 4294967296) :
    (encode t p).length = HEADER_SIZE + p.length ∧
    decode_header ((encode t p).take HEADER_SIZE) = (t, p.length) ∧
    (encode t p).drop HEADER_SIZE = p := by
  refine ⟨?_, ?_, ?_⟩
  · simp [encode, u32ToLeBytes, HEADER_SIZE]
    omega
  · simp [encode, u32ToLeBytes, HEADER_SIZE, decode_header, leU32]
    omega
  · simp [encode, u32ToLeBytes, HEADER_SIZE]

/-- Witness for C5 at `t = 1`, `p = [104, 105]`. -/
theorem encode_decode_header_roundtrip_witness :
    (encode 1 [104, 105]).length = HEADER_SIZE + [104, 105].length ∧
    decode_header ((encode 1 [104, 105]).take HEADER_SIZE) = (1, [104, 105].length) ∧
    (encode 1 [104, 105]).drop HEADER_SIZE = [104, 105] :=
  encode_decode_header_roundtrip 1 [104, 105] (by decide) (by decide)

/-- C9: for every payload `p` with `|p| ≥ 2^32`, `encode t p` still emits all
`1 + 4 + |p|` bytes, but the length field recovered by `decode_header` is
`|p| mod 2^32`, which differs from `|p|`: the round-trip contract fails
outside the stated precondition. -/
theorem encode_length_field_truncates (t : Nat) (p : List Nat)
    (hp : 4294967296 ≤ p.length) :
    (encode t p).length = 1 + 4 + p.length ∧
    (decode_header ((encode t p).take HEADER_SIZE)).2 = p.length % 4294967296 ∧
    p.length % 4294967296 ≠ p.length ∧
    (encode t p).drop HEADER_SIZE = p := by
  refine ⟨?_, ?_, ?_, ?_⟩
  · simp [encode, u32ToLeBytes]
    omega
  · simp [encode, u32ToLeBytes, HEADER_SIZE, decode_header, leU32]
    omega
  · have : p.length % 4294967296 < 4294967296 := Nat.mod_lt _ (by norm_num)
    omega
  · simp [encode, u32ToLeBytes, HEADER_SIZE]

/-- Witness for C9 at `t = 0`, `p = replicate 2^32 0`. -/
theorem encode_length_field_truncates_witness :
    (encode 0 (List.replicate 4294967296 0)).length
        = 1 + 4 + (List.replicate 4294967296 0).length ∧
    (decode_header ((encode 0 (List.replicate 4294967296 0)).take HEADER_SIZE)).2
        = (List.replicate 4294967296 0).length % 4294967296 ∧
    (List.replicate 4294967296 0).length % 4294967296
        ≠ (List.replicate 4294967296 0).length ∧
    (encode 0 (List.replicate 4294967296 0)).drop HEADER_SIZE
        = List.replicate 4294967296 0 :=
  encode_length_field_truncates 0 (List.replicate 4294967296 0)
    (by rw [List.length_replicate])

/-! ## Scrollback ring buffer (src/buffer.rs) -/

/-- `ScrollbackBuffer`: a ring buffer of raw pty output bytes; when the
capacity is exceeded the oldest data is overwritten. -/
structure ScrollbackBuffer where
  buf : List Nat
  capacity : Nat
  write_pos : Nat
  total_written : Nat

/-- `ScrollbackBuffer::new`. -/
def ScrollbackBuffer.new (capacity : Nat) : ScrollbackBuffer :=
  ⟨List.replicate capacity 0, capacity, 0, 0⟩

/-- Model of the Rust slice assignment `l[start..stop].copy_from_slice(src)`:
`none` is the panic when the range is out of bounds or the lengths differ. -/
def copyRange (l : List Nat) (start stop : Nat) (src : List Nat) :
    Option (List Nat) :=
  if start ≤ stop ∧ stop ≤ l.length ∧ src.length = stop - start then
    some (l.take start ++ (src ++ l.drop stop))
  else none

/-- `slice::chunks` with chunk size `m + 1`. Rust `chunks` asserts a nonzero
chunk size (panicking otherwise, which `ScrollbackBuffer.append` models
separately), so the model takes the predecessor of the size as argument. -/
def chunksOf1 (m : Nat) : List Nat → List (List Nat)
  | [] => []
  | x :: xs => ((x :: xs).take (m + 1)) :: chunksOf1 m ((x :: xs).drop (m + 1))
termination_by l => l.length
decreasing_by simp; omega

/-- The inner re-trimming of a chunk in `ScrollbackBuffer::append`
(`if chunk.len() > self.capacity { &chunk[chunk.len() - self.capacity..] }`;
dead code in the source, since the chunk iterator already bounds chunk
lengths by the capacity, but modelled nevertheless). -/
def ScrollbackBuffer.trimChunk (s : ScrollbackBuffer) (chunk0 : List Nat) :
    List Nat :=
  if s.capacity < chunk0.length then chunk0.drop (chunk0.length - s.capacity)
  else chunk0

/-- The buffer update of one `for chunk in data.chunks(capacity)` iteration
of `ScrollbackBuffer::append`: either a single `copy_from_slice` when the
chunk fits before the end, or two (wrap-around). -/
def ScrollbackBuffer.writeChunkBuf (s : ScrollbackBuffer) (chunk : List Nat) :
    Option (List Nat) :=
  if chunk.length ≤ s.capacity - s.write_pos then
    copyRange s.buf s.write_pos (s.write_pos + chunk.length) chunk
  else
    (copyRange s.buf s.write_pos s.buf.length
        (chunk.take (s.capacity - s.write_pos))).bind
      fun b1 => copyRange b1 0 (chunk.length - (s.capacity - s.write_pos))
                  (chunk.drop (s.capacity - s.write_pos))

/-- One full iteration of the chunk loop of `ScrollbackBuffer::append`:
write the (re-trimmed) chunk, then advance `write_pos` modulo the capacity
(a modulo by zero is a Rust panic, `none`) and bump `total_written`. -/
def ScrollbackBuffer.writeChunk (s : ScrollbackBuffer) (chunk0 : List Nat) :
    Option ScrollbackBuffer :=
  (s.writeChunkBuf (s.trimChunk chunk0)).bind fun b =>
    if s.capacity = 0 then none
    else some ⟨b, s.capacity,
      (s.write_pos + (s.trimChunk chunk0).length) % s.capacity,
      s.total_written + (s.trimChunk chunk0).length⟩

/-- `ScrollbackBuffer::append`. `data.chunks(capacity)` asserts a nonzero
chunk size, so capacity 0 panics (`none`) on every input, even the empty
chunk. -/
def ScrollbackBuffer.append (s : ScrollbackBuffer) (data : List Nat) :
    Option ScrollbackBuffer :=
  if s.capacity = 0 then none
  else (chunksOf1 (s.capacity - 1) data).foldlM ScrollbackBuffer.writeChunk s

/-- `ScrollbackBuffer::get_contents`: all stored data, oldest first. `none`
models an out-of-bounds slice panic (never reached from reachable states). -/
def ScrollbackBuffer.get_contents (s : ScrollbackBuffer) : Option (List Nat) :=
  if s.total_written = 0 then some []
  else if s.total_written ≤ s.capacity then
    if s.total_written ≤ s.buf.length then some (s.buf.take s.total_written)
    else none
  else
    if s.write_pos ≤ s.buf.length then
      some (s.buf.drop s.write_pos ++ s.buf.take s.write_pos)
    else none

/-- `ScrollbackBuffer::len`: current amount of valid data stored. -/
def ScrollbackBuffer.len (s : ScrollbackBuffer) : Nat :=
  if s.total_written ≤ s.capacity then s.total_written else s.capacity

/-- A whole lifetime of `append` calls, in order. -/
def ScrollbackBuffer.appendAll (s : ScrollbackBuffer)
    (chunks : List (List Nat)) : Option ScrollbackBuffer :=
  chunks.foldlM ScrollbackBuffer.append s

/-- The last `n` elements of a list (all of it when `n ≥ length`). -/
def lastN (n : Nat) (l : List Nat) : List Nat := l.drop (l.length - n)

/-- Ring-buffer representation invariant relating a buffer state to the full
append history `h`: byte `p` of the history lives at cell `p % C` as long as
it is among the `C` most recent bytes. -/
def BufInv (C : Nat) (h : List Nat) (s : ScrollbackBuffer) : Prop :=
  s.capacity = C ∧ s.buf.length = C ∧ s.total_written = h.length ∧
  s.write_pos = h.length % C ∧
  ∀ p : Nat, p < h.length → h.length ≤ p + C →
    s.buf.getD (p % C) 0 = h.getD p 0

lemma chunksOf1_flatten (m : Nat) (l : List Nat) :
    (chunksOf1 m l).flatten = l := by
  generalize hn : l.length = n
  induction n using Nat.strong_induction_on generalizing l with
  | _ n ih =>
    cases l with
    | nil => simp [chunksOf1]
    | cons x xs =>
      subst hn
      rw [chunksOf1]
      rw [List.flatten_cons, ih ((x :: xs).drop (m + 1)).length (by simp; omega)
            ((x :: xs).drop (m + 1)) rfl]
      exact List.take_append_drop _ _

lemma chunksOf1_length_le (m : Nat) (l : List Nat) (c : List Nat)
    (hc : c ∈ chunksOf1 m l) : c.length ≤ m + 1 := by
  generalize hn : l.length = n
  induction n using Nat.strong_induction_on generalizing l c with
  | _ n ih =>
    cases l with
    | nil => simp [chunksOf1] at hc
    | cons x xs =>
      subst hn
      rw [chunksOf1] at hc
      rcases List.mem_cons.mp hc with h | h
      · subst h; simp
      · exact ih ((x :: xs).drop (m + 1)).length (by simp; omega)
          ((x :: xs).drop (m + 1)) c h rfl

lemma mod_sub_le (a d C : Nat) (hd : d ≤ a % C) :
    (a - d) % C = a % C - d := by
  rcases Nat.eq_zero_or_pos C with hC | hC
  · subst hC; simp [Nat.mod_zero]
  · have hq : C * (a / C) + a % C = a := Nat.div_add_mod a C
    have h1 : a - d = C * (a / C) + (a % C - d) := by omega
    rw [h1, Nat.mul_add_mod]
    exact Nat.mod_eq_of_lt (by have := Nat.mod_lt a hC; omega)

lemma mod_sub_gt (a d C : Nat) (hC : 0 < C) (hda : d ≤ a) (hdC : d ≤ C)
    (hgt : a % C < d) : (a - d) % C = a % C + C - d := by
  have hq : C * (a / C) + a % C = a := Nat.div_add_mod a C
  have hq1 : 1 ≤ a / C := by
    rcases Nat.eq_zero_or_pos (a / C) with h0 | h1
    · rw [h0, Nat.mul_zero, Nat.zero_add] at hq; omega
    · exact h1
  obtain ⟨e, he⟩ : ∃ e, a / C = e + 1 := ⟨a / C - 1, by omega⟩
  have h2 : C * (a / C) = C * e + C := by rw [he]; ring
  have h3 : a - d = C * e + (a % C + C - d) := by omega
  rw [h3, Nat.mul_add_mod]
  exact Nat.mod_eq_of_lt (by have := Nat.mod_lt a hC; omega)

lemma getD_take_lt (l : List Nat) (k n : Nat) (h : n < k) :
    (l.take k).getD n 0 = l.getD n 0 := by
  rcases Nat.lt_or_ge n l.length with h2 | h2
  · rw [List.getD_eq_getElem _ _ (by simp; omega), List.getD_eq_getElem _ _ h2]
    simp [List.getElem_take]
  · rw [List.getD_eq_default _ _ (by simp; omega), List.getD_eq_default _ _ h2]

lemma getD_drop (l : List Nat) (k n : Nat) :
    (l.drop k).getD n 0 = l.getD (k + n) 0 := by
  rcases Nat.lt_or_ge (k + n) l.length with h2 | h2
  · rw [List.getD_eq_getElem _ _ (by simp; omega), List.getD_eq_getElem _ _ h2]
    simp [List.getElem_drop]
  · rw [List.getD_eq_default _ _ (by simp; omega), List.getD_eq_default _ _ h2]

lemma list_eq_of_getD (l1 l2 : List Nat) (hlen : l1.length = l2.length)
    (h : ∀ i, i < l1.length → l1.getD i 0 = l2.getD i 0) : l1 = l2 := by
  apply List.ext_getElem hlen
  intro i h1 h2
  rw [← List.getD_eq_getElem l1 0 h1, ← List.getD_eq_getElem l2 0 h2]
  exact h i h1

lemma writeChunk_no_wrap (s : ScrollbackBuffer) (chunk : List Nat)
    (h1 : ¬ s.capacity < chunk.length)
    (h2 : chunk.length ≤ s.capacity - s.write_pos)
    (h3 : s.write_pos + chunk.length ≤ s.buf.length) (h4 : s.capacity ≠ 0) :
    s.writeChunk chunk = some ⟨s.buf.take s.write_pos ++
        (chunk ++ s.buf.drop (s.write_pos + chunk.length)),
      s.capacity, (s.write_pos + chunk.length) % s.capacity,
      s.total_written + chunk.length⟩ := by
  have ht : s.trimChunk chunk = chunk := if_neg h1
  unfold ScrollbackBuffer.writeChunk ScrollbackBuffer.writeChunkBuf
  rw [ht, if_pos h2]
  rw [copyRange, if_pos ⟨Nat.le_add_right _ _, h3, by omega⟩]
  rw [Option.some_bind, if_neg h4]

lemma writeChunk_wrap (s : ScrollbackBuffer) (chunk : List Nat)
    (h1 : ¬ s.capacity < chunk.length)
    (h2 : ¬ chunk.length ≤ s.capacity - s.write_pos)
    (h3 : s.write_pos ≤ s.buf.length)
    (h5 : (chunk.take (s.capacity - s.write_pos)).length
            = s.buf.length - s.write_pos)
    (h6 : chunk.length - (s.capacity - s.write_pos)
            ≤ (s.buf.take s.write_pos
                ++ (chunk.take (s.capacity - s.write_pos)
                    ++ s.buf.drop s.buf.length)).length)
    (h4 : s.capacity ≠ 0) :
    s.writeChunk chunk = some ⟨
      (s.buf.take s.write_pos
          ++ (chunk.take (s.capacity - s.write_pos)
              ++ s.buf.drop s.buf.length)).take 0
        ++ (chunk.drop (s.capacity - s.write_pos)
            ++ (s.buf.take s.write_pos
                ++ (chunk.take (s.capacity - s.write_pos)
                    ++ s.buf.drop s.buf.length)).drop
                  (chunk.length - (s.capacity - s.write_pos))),
      s.capacity, (s.write_pos + chunk.length) % s.capacity,
      s.total_written + chunk.length⟩ := by
  have ht : s.trimChunk chunk = chunk := if_neg h1
  unfold ScrollbackBuffer.writeChunk ScrollbackBuffer.writeChunkBuf
  rw [ht, if_neg h2]
  rw [copyRange, if_pos ⟨h3, Nat.le_refl _, h5⟩]
  rw [Option.some_bind]
  rw [copyRange, if_pos ⟨Nat.zero_le _, h6, by simp⟩]
  rw [Option.some_bind, if_neg h4]

/-- Reading any cell of a ring patch `take wp ++ src ++ drop (wp + |src|)`. -/
lemma getD_patch (buf src : List Nat) (wp i : Nat)
    (h : wp + src.length ≤ buf.length) :
    (buf.take wp ++ (src ++ buf.drop (wp + src.length))).getD i 0 =
      if i < wp then buf.getD i 0
      else if i < wp + src.length then src.getD (i - wp) 0
      else buf.getD i 0 := by
  have htk : (buf.take wp).length = wp := by simp; omega
  by_cases h1 : i < wp
  · rw [if_pos h1, List.getD_append _ _ _ _ (by omega), getD_take_lt _ _ _ h1]
  · rw [if_neg h1]
    rw [List.getD_append_right _ _ _ _ (by omega), htk]
    by_cases h2 : i < wp + src.length
    · rw [if_pos h2, List.getD_append _ _ _ _ (by omega)]
    · rw [if_neg h2, List.getD_append_right _ _ _ _ (by omega), getD_drop]
      congr 1
      omega

/-- One chunk write preserves the ring-buffer invariant and never panics,
for chunks bounded by the capacity. -/
lemma writeChunk_inv (C : Nat) (hC : 0 < C) (h : List Nat)
    (s : ScrollbackBuffer) (chunk : List Nat) (hlen : chunk.length ≤ C)
    (inv : BufInv C h s) :
    ∃ s', s.writeChunk chunk = some s' ∧ BufInv C (h ++ chunk) s' := by
  obtain ⟨hcap, hbuf, htot, hwp, hpt⟩ := inv
  have hwpC : s.write_pos < C := by rw [hwp]; exact Nat.mod_lt _ hC
  have h1 : ¬ s.capacity < chunk.length := by omega
  have hmodp : (s.write_pos + chunk.length) % s.capacity
      = (h ++ chunk).length % C := by
    rw [hcap, hwp, List.length_append, Nat.mod_add_mod]
  by_cases hcase : chunk.length ≤ s.capacity - s.write_pos
  · -- the chunk fits before the end of the buffer: a single copy
    refine ⟨_, writeChunk_no_wrap s chunk h1 hcase (by omega) (by omega),
      hcap, ?_, ?_, hmodp, ?_⟩
    · simp; omega
    · simp [htot]
    · intro p hp1 hp2
      simp only [List.length_append] at hp1 hp2
      rw [getD_patch s.buf chunk s.write_pos (p % C) (by omega)]
      by_cases hple : h.length ≤ p
      · have e1 : p % C = s.write_pos + (p - h.length) := by
          conv_lhs => rw [show p = h.length + (p - h.length) by omega]
          rw [← Nat.mod_add_mod, ← hwp]
          exact Nat.mod_eq_of_lt (by omega)
        rw [e1, if_neg (by omega), if_pos (by omega),
          List.getD_append_right _ _ _ _ hple]
        congr 1
        omega
      · push_neg at hple
        have hi : p % C < s.write_pos ∨ s.write_pos + chunk.length ≤ p % C := by
          by_cases hd : h.length - p ≤ h.length % C
          · have e := mod_sub_le h.length (h.length - p) C hd
            rw [show h.length - (h.length - p) = p by omega] at e
            left; omega
          · push_neg at hd
            have e := mod_sub_gt h.length (h.length - p) C hC (by omega)
              (by omega) hd
            rw [show h.length - (h.length - p) = p by omega] at e
            right; omega
        rcases hi with hi | hi
        · rw [if_pos hi, hpt p hple (by omega), List.getD_append _ _ _ _ hple]
        · rw [if_neg (by omega), if_neg (by omega), hpt p hple (by omega),
            List.getD_append _ _ _ _ hple]
  · -- wrap-around: two copies
    have hsp : s.capacity - s.write_pos = C - s.write_pos := by rw [hcap]
    have hXd : ∀ j,
        (s.buf.take s.write_pos ++ (chunk.take (s.capacity - s.write_pos)
            ++ s.buf.drop s.buf.length)).getD j 0
          = if j < s.write_pos then s.buf.getD j 0
            else (chunk.take (s.capacity - s.write_pos)).getD
                   (j - s.write_pos) 0 := by
      intro j
      rw [List.drop_length]
      by_cases hj : j < s.write_pos
      · rw [if_pos hj, List.getD_append _ _ _ _ (by simp; omega),
          getD_take_lt _ _ _ hj]
      · rw [if_neg hj, List.getD_append_right _ _ _ _ (by simp; omega)]
        simp only [List.append_nil]
        congr 1
        simp
        omega
    refine ⟨_, writeChunk_wrap s chunk h1 hcase (by omega) (by simp; omega)
      (by simp; omega) (by omega), hcap, ?_, ?_, hmodp, ?_⟩
    · simp; omega
    · simp [htot]
    · intro p hp1 hp2
      simp only [List.length_append] at hp1 hp2
      simp only [List.take_zero, List.nil_append]
      have hb2 : ∀ j,
          (chunk.drop (s.capacity - s.write_pos)
            ++ (s.buf.take s.write_pos
                ++ (chunk.take (s.capacity - s.write_pos)
                    ++ s.buf.drop s.buf.length)).drop
                  (chunk.length - (s.capacity - s.write_pos))).getD j 0
            = if j < chunk.length - (s.capacity - s.write_pos) then
                chunk.getD ((s.capacity - s.write_pos) + j) 0
              else (s.buf.take s.write_pos
                ++ (chunk.take (s.capacity - s.write_pos)
                    ++ s.buf.drop s.buf.length)).getD j 0 := by
        intro j
        by_cases hj : j < chunk.length - (s.capacity - s.write_pos)
        · rw [if_pos hj, List.getD_append _ _ _ _ (by simp; omega), getD_drop]
        · rw [if_neg hj, List.getD_append_right _ _ _ _ (by simp; omega),
            getD_drop]
          congr 1
          simp
          omega
      rw [hb2]
      by_cases hple : h.length ≤ p
      · by_cases hm1 : p - h.length < s.capacity - s.write_pos
        · have e1 : p % C = s.write_pos + (p - h.length) := by
            conv_lhs => rw [show p = h.length + (p - h.length) by omega]
            rw [← Nat.mod_add_mod, ← hwp]
            exact Nat.mod_eq_of_lt (by omega)
          rw [e1, if_neg (by omega), hXd, if_neg (by omega),
            List.getD_append_right _ _ _ _ hple,
            show s.write_pos + (p - h.length) - s.write_pos = p - h.length
              by omega]
          rw [getD_take_lt _ _ _ (by omega)]
        · push_neg at hm1
          have e1 : p % C = p - h.length - (s.capacity - s.write_pos) := by
            conv_lhs => rw [show p = h.length + (p - h.length) by omega]
            rw [← Nat.mod_add_mod, ← hwp,
              Nat.mod_eq_sub_mod (by omega)]
            rw [Nat.mod_eq_of_lt (by omega)]
            omega
          rw [e1, if_pos (by omega), List.getD_append_right _ _ _ _ hple]
          congr 1
          omega
      · push_neg at hple
        have hd : h.length - p ≤ h.length % C := by
          rw [← hwp]; omega
        have e := mod_sub_le h.length (h.length - p) C hd
        rw [show h.length - (h.length - p) = p by omega] at e
        rw [if_neg (by omega), hXd, if_pos (by omega),
          hpt p hple (by omega), List.getD_append _ _ _ _ hple]

/-- The chunk loop of `append` preserves the invariant chunk by chunk. -/
lemma foldWriteChunks_inv (C : Nat) (hC : 0 < C) :
    ∀ (cs : List (List Nat)) (h : List Nat) (s : ScrollbackBuffer),
      (∀ c ∈ cs, c.length ≤ C) → BufInv C h s →
      ∃ s', cs.foldlM ScrollbackBuffer.writeChunk s = some s' ∧
        BufInv C (h ++ cs.flatten) s'
  | [], h, s, _, inv => ⟨s, by simp, by simpa using inv⟩
  | c :: cs, h, s, hlen, inv => by
      obtain ⟨s1, hw, inv1⟩ :=
        writeChunk_inv C hC h s c (hlen c (by simp)) inv
      obtain ⟨s', hw', inv'⟩ := foldWriteChunks_inv C hC cs (h ++ c) s1
        (fun d hd => hlen d (by simp [hd])) inv1
      refine ⟨s', ?_, by simpa [List.append_assoc] using inv'⟩
      rw [List.foldlM_cons, hw]
      simpa using hw'

/-- `append` preserves the invariant and never panics when the capacity is
positive. -/
lemma append_inv (C : Nat) (hC : 0 < C) (h : List Nat)
    (s : ScrollbackBuffer) (inv : BufInv C h s) (data : List Nat) :
    ∃ s', s.append data = some s' ∧ BufInv C (h ++ data) s' := by
  have hcap : s.capacity = C := inv.1
  obtain ⟨s', hf, inv'⟩ := foldWriteChunks_inv C hC
    (chunksOf1 (s.capacity - 1) data) h s
    (fun c hc => by
      have := chunksOf1_length_le (s.capacity - 1) data c hc
      omega) inv
  refine ⟨s', ?_, ?_⟩
  · rw [ScrollbackBuffer.append, if_neg (by omega)]
    exact hf
  · rwa [chunksOf1_flatten] at inv'

/-- A freshly constructed buffer satisfies the invariant for the empty
history. -/
lemma new_inv (C : Nat) : BufInv C [] (ScrollbackBuffer.new C) := by
  refine ⟨rfl, by simp [ScrollbackBuffer.new], rfl, by simp [ScrollbackBuffer.new], ?_⟩
  intro p hp
  simp at hp

/-- A whole lifetime of appends preserves the invariant and never panics. -/
lemma appendAll_inv (C : Nat) (hC : 0 < C) :
    ∀ (ds : List (List Nat)) (h : List Nat) (s : ScrollbackBuffer),
      BufInv C h s →
      ∃ s', s.appendAll ds = some s' ∧ BufInv C (h ++ ds.flatten) s'
  | [], h, s, inv => ⟨s, by simp [ScrollbackBuffer.appendAll], by simpa using inv⟩
  | d :: ds, h, s, inv => by
      obtain ⟨s1, hw, inv1⟩ := append_inv C hC h s inv d
      obtain ⟨s', hw', inv'⟩ := appendAll_inv C hC ds (h ++ d) s1 inv1
      refine ⟨s', ?_, by simpa [List.append_assoc] using inv'⟩
      rw [ScrollbackBuffer.appendAll, List.foldlM_cons, hw]
      simpa [ScrollbackBuffer.appendAll] using hw'

/-- Under the invariant, `get_contents` never panics and returns exactly the
last `min |h| C` bytes of the history, oldest first. -/
lemma get_contents_inv (C : Nat) (hC : 0 < C) (h : List Nat)
    (s : ScrollbackBuffer) (inv : BufInv C h s) :
    s.get_contents = some (lastN (min h.length C) h) := by
  obtain ⟨hcap, hbuf, htot, hwp, hpt⟩ := inv
  have hwpC : s.write_pos < C := by rw [hwp]; exact Nat.mod_lt _ hC
  unfold ScrollbackBuffer.get_contents lastN
  rw [htot, hcap, hbuf]
  by_cases h0 : h.length = 0
  · rw [if_pos h0]
    have : h = [] := List.length_eq_zero.mp h0
    simp [this]
  · rw [if_neg h0]
    by_cases hle : h.length ≤ C
    · rw [if_pos hle, if_pos (by omega)]
      congr 1
      rw [show h.length - min h.length C = 0 by omega, List.drop_zero]
      refine list_eq_of_getD _ _ (by simp; omega) ?_
      intro i hi
      simp only [List.length_take] at hi
      rw [getD_take_lt _ _ _ (by omega)]
      have := hpt i (by omega) (by omega)
      rwa [Nat.mod_eq_of_lt (by omega)] at this
    · push_neg at hle
      rw [if_neg (by omega), if_pos (by omega)]
      congr 1
      rw [show min h.length C = C by omega]
      refine list_eq_of_getD _ _ (by simp; omega) ?_
      intro i hi
      simp only [List.length_append, List.length_take, List.length_drop] at hi
      have hiC : i < C := by omega
      have hp : h.length - C + i < h.length := by omega
      have hptv := hpt (h.length - C + i) hp (by omega)
      have hmod : (h.length - C + i) % C = (s.write_pos + i) % C := by
        conv_lhs => rw [show h.length - C + i = (h.length + i) - C by omega]
        rw [← Nat.mod_eq_sub_mod (by omega), ← Nat.mod_add_mod, ← hwp]
      rw [getD_drop]
      by_cases hsplit : i < C - s.write_pos
      · rw [List.getD_append _ _ _ _ (by simp; omega), getD_drop]
        have hix : (h.length - C + i) % C = s.write_pos + i := by
          rw [hmod]; exact Nat.mod_eq_of_lt (by omega)
        rw [hix] at hptv
        exact hptv
      · push_neg at hsplit
        rw [List.getD_append_right _ _ _ _ (by simp; omega)]
        rw [show (s.buf.drop s.write_pos).length = C - s.write_pos
          by simp; omega]
        rw [getD_take_lt _ _ _ (by omega)]
        have hix : (h.length - C + i) % C = i - (C - s.write_pos) := by
          rw [hmod, Nat.mod_eq_sub_mod (by omega),
            Nat.mod_eq_of_lt (by omega)]
          omega
        rw [hix] at hptv
        exact hptv

/-- Under the invariant, `len` is `min |h| C`. -/
lemma len_inv (C : Nat) (h : List Nat) (s : ScrollbackBuffer)
    (inv : BufInv C h s) : s.len = min h.length C := by
  obtain ⟨hcap, _, htot, _, _⟩ := inv
  rw [ScrollbackBuffer.len, htot, hcap]
  split <;> omega

/-- C2: for every capacity `C ≥ 1` and every finite sequence of `append`
calls with total length `T`, `get_contents` returns exactly the last
`min T C` bytes of the concatenation of all appended chunks (oldest first),
of length `min T C`, and `len` is `min T C`; appending a chunk larger than
`C` afterwards retains only its trailing `C` bytes. -/
theorem scrollback_buffer_contents (C : Nat) (hC : 0 < C)
    (appends : List (List Nat)) :
    ∃ s, (ScrollbackBuffer.new C).appendAll appends = some s ∧
      s.get_contents
        = some (lastN (min appends.flatten.length C) appends.flatten) ∧
      (lastN (min appends.flatten.length C) appends.flatten).length
        = min appends.flatten.length C ∧
      s.len = min appends.flatten.length C ∧
      ∀ data : List Nat, C < data.length →
        ∃ s2, s.append data = some s2 ∧
          s2.get_contents = some (lastN C data) := by
  obtain ⟨s, hall, inv⟩ :=
    appendAll_inv C hC appends [] (ScrollbackBuffer.new C) (new_inv C)
  rw [List.nil_append] at inv
  refine ⟨s, hall, get_contents_inv C hC _ s inv, ?_,
    len_inv C _ s inv, ?_⟩
  · simp [lastN]; omega
  · intro data hdata
    obtain ⟨s2, hap, inv2⟩ := append_inv C hC _ s inv data
    refine ⟨s2, hap, ?_⟩
    rw [get_contents_inv C hC _ s2 inv2]
    congr 1
    rw [show min (appends.flatten ++ data).length C = C by simp; omega]
    unfold lastN
    rw [List.length_append]
    rw [show appends.flatten.length + data.length - C
        = appends.flatten.length + (data.length - C) by omega,
      List.drop_append]

/-- Witness for C2 at `C = 3`, appends `[[1,2],[3,4,5,6]]`. -/
theorem scrollback_buffer_contents_witness :
    ∃ s, (ScrollbackBuffer.new 3).appendAll [[1, 2], [3, 4, 5, 6]] = some s ∧
      s.get_contents
        = some (lastN (min [[1, 2], [3, 4, 5, 6]].flatten.length 3)
                  [[1, 2], [3, 4, 5, 6]].flatten) ∧
      (lastN (min [[1, 2], [3, 4, 5, 6]].flatten.length 3)
          [[1, 2], [3, 4, 5, 6]].flatten).length
        = min [[1, 2], [3, 4, 5, 6]].flatten.length 3 ∧
      s.len = min [[1, 2], [3, 4, 5, 6]].flatten.length 3 ∧
      ∀ data : List Nat, 3 < data.length →
        ∃ s2, s.append data = some s2 ∧
          s2.get_contents = some (lastN 3 data) :=
  scrollback_buffer_contents 3 (by decide) [[1, 2], [3, 4, 5, 6]]

/-- C10: from any buffer constructed with capacity `≥ 1`, every `append` and
every `get_contents` is total (all internal indices stay in bounds and the
modulo divisor is nonzero, so no panic for any input); with capacity `0`,
`append` panics on every input, the empty chunk included: the spec's
capacity `≥ 1` precondition is necessary. -/
theorem scrollback_buffer_totality :
    (∀ C : Nat, 0 < C → ∀ appends : List (List Nat),
      ∃ s, (ScrollbackBuffer.new C).appendAll appends = some s ∧
        (∀ data : List Nat, (s.append data).isSome) ∧
        s.get_contents.isSome) ∧
    (∀ s : ScrollbackBuffer, s.capacity = 0 → ∀ data : List Nat,
      s.append data = none) := by
  constructor
  · intro C hC appends
    obtain ⟨s, hall, inv⟩ :=
      appendAll_inv C hC appends [] (ScrollbackBuffer.new C) (new_inv C)
    rw [List.nil_append] at inv
    refine ⟨s, hall, ?_, ?_⟩
    · intro data
      obtain ⟨s2, hap, _⟩ := append_inv C hC _ s inv data
      simp [hap]
    · rw [get_contents_inv C hC _ s inv]
      rfl
  · intro s h0 data
    rw [ScrollbackBuffer.append, if_pos h0]

/-- Witness for C10: capacity 2 never panics on a sample run; capacity 0
panics even on the empty chunk. -/
theorem scrollback_buffer_totality_witness :
    (∃ s, (ScrollbackBuffer.new 2).appendAll [[7, 8, 9]] = some s ∧
      (∀ data : List Nat, (s.append data).isSome) ∧
      s.get_contents.isSome) ∧
    (ScrollbackBuffer.new 0).append [] = none :=
  ⟨scrollback_buffer_totality.1 2 (by decide) [[7, 8, 9]],
   scrollback_buffer_totality.2 (ScrollbackBuffer.new 0) rfl []⟩

/-! ## Scrollback replay sanitizer (src/server.rs,
`sanitize_scrollback_for_replay`) -/

/-- CSI final byte range `(0x40..=0x7e).contains(&b)`. -/
def isCsiFinal (b : Nat) : Bool := 0x40 ≤ b && b ≤ 0x7e

/-- `is_status_query`: final byte `n`. -/
def is_status_query (final_byte : Nat) : Bool := final_byte == 0x6e

/-- `is_device_attr_query`: final byte `c` with parameter bytes empty or
starting with `>` or `?`. -/
def is_device_attr_query (params : List Nat) (final_byte : Nat) : Bool :=
  final_byte == 0x63 &&
    (params.isEmpty || params.headD 0 == 0x3e || params.headD 0 == 0x3f)

/-- The inner `while j < data.len()` scan of
`sanitize_scrollback_for_replay`: the least index `j ≥ start` holding a CSI
final byte, if any. -/
def findCsiFinal (data : List Nat) (j : Nat) : Option Nat :=
  if j < data.length then
    if isCsiFinal (data.getD j 0) then some j
    else findCsiFinal data (j + 1)
  else none
termination_by data.length - j
decreasing_by omega

lemma findCsiFinal_some (data : List Nat) (j k : Nat)
    (h : findCsiFinal data j = some k) :
    j ≤ k ∧ k < data.length ∧ isCsiFinal (data.getD k 0) = true ∧
      ∀ m, j ≤ m → m < k → isCsiFinal (data.getD m 0) = false := by
  generalize hn : data.length - j = n
  induction n using Nat.strong_induction_on generalizing j with
  | _ n ih =>
    rw [findCsiFinal] at h
    by_cases hj : j < data.length
    · rw [if_pos hj] at h
      by_cases hf : isCsiFinal (data.getD j 0)
      · rw [if_pos hf] at h
        obtain rfl : j = k := Option.some.inj h
        exact ⟨Nat.le_refl _, hj, hf, fun m hm1 hm2 => absurd hm1 (by omega)⟩
      · rw [if_neg hf] at h
        obtain ⟨h1, h2, h3, h4⟩ :=
          ih (data.length - (j + 1)) (by omega) (j + 1) h rfl
        refine ⟨by omega, h2, h3, fun m hm1 hm2 => ?_⟩
        rcases Nat.eq_or_lt_of_le hm1 with rfl | hm1'
        · exact Bool.not_eq_true _ ▸ (by simpa using hf)
        · exact h4 m hm1' hm2
    · rw [if_neg hj] at h
      exact absurd h (by simp)

lemma findCsiFinal_none (data : List Nat) (j : Nat)
    (h : findCsiFinal data j = none) :
    ∀ m, j ≤ m → m < data.length → isCsiFinal (data.getD m 0) = false := by
  generalize hn : data.length - j = n
  induction n using Nat.strong_induction_on generalizing j with
  | _ n ih =>
    rw [findCsiFinal] at h
    by_cases hj : j < data.length
    · rw [if_pos hj] at h
      by_cases hf : isCsiFinal (data.getD j 0)
      · rw [if_pos hf] at h; exact absurd h (by simp)
      · rw [if_neg hf] at h
        intro m hm1 hm2
        rcases Nat.eq_or_lt_of_le hm1 with rfl | hm1'
        · simpa using hf
        · exact ih (data.length - (j + 1)) (by omega) (j + 1) h rfl m hm1' hm2
    · intro m hm1 hm2; omega

/-- The outer `while i < data.len()` loop of
`sanitize_scrollback_for_replay`, at position `i`: on `ESC [`, scan to the
final byte; drop the whole sequence when it is a status query (`n`) or a
device-attributes query (`c` with empty, `>` or `?` parameters), otherwise
copy it; a scan that runs off the end copies the rest verbatim and stops;
any other byte is copied. -/
def sanitizeLoop (data : List Nat) (i : Nat) : List Nat :=
  if i < data.length then
    if data.getD i 0 == 0x1b && decide (i + 1 < data.length)
        && data.getD (i + 1) 0 == 0x5b then
      match hj : findCsiFinal data (i + 2) with
      | some j =>
          (if is_status_query (data.getD j 0)
              || is_device_attr_query
                   ((data.drop (i + 2)).take (j - (i + 2))) (data.getD j 0)
           then []
           else (data.drop i).take (j + 1 - i))
          ++ sanitizeLoop data (j + 1)
      | none => data.drop i
    else data.getD i 0 :: sanitizeLoop data (i + 1)
  else []
termination_by data.length - i
decreasing_by
  · have := findCsiFinal_some data (i + 2) j hj; omega
  · omega

/-- `sanitize_scrollback_for_replay`: remove terminal query escape
sequences from scrollback replay. -/
def sanitize_scrollback_for_replay (data : List Nat) : List Nat :=
  sanitizeLoop data 0

lemma length_dropWhile_le' (p : Nat → Bool) (l : List Nat) :
    (l.dropWhile p).length ≤ l.length := by
  induction l with
  | nil => simp
  | cons x xs ih =>
    rw [List.dropWhile_cons]
    split
    · simp; omega
    · simp

/-- The query predicate of the amended claim: final byte `n`, or final byte
`c` with parameter bytes empty or starting with `>` or `?`. -/
def strippedQuery (params : List Nat) (final_byte : Nat) : Bool :=
  final_byte == 0x6e ||
    (final_byte == 0x63 &&
      (params.isEmpty || params.headD 0 == 0x3e || params.headD 0 == 0x3f))

/-- The query predicate of the claim as literally stated: any complete CSI
whose final byte is `n` or `c`. -/
def claimedQuery (params : List Nat) (final_byte : Nat) : Bool :=
  final_byte == 0x6e || final_byte == 0x63

/-- Reference sanitizer written from the spec sentence, parameterized by
which queries are stripped: scan for `ESC [`; split a CSI at its first
final byte (`0x40..=0x7e`) and keep or drop the complete sequence whole; a
truncated CSI at the end of the buffer is preserved verbatim; every other
byte passes through unchanged. -/
def sanitizeSpec (strip : List Nat → Nat → Bool) : List Nat → List Nat
  | [] => []
  | [b] => [b]
  | b0 :: b1 :: rest =>
    if b0 == 0x1b && b1 == 0x5b then
      if (rest.dropWhile fun b => !isCsiFinal b).isEmpty then b0 :: b1 :: rest
      else
        (if strip (rest.takeWhile fun b => !isCsiFinal b)
              ((rest.dropWhile fun b => !isCsiFinal b).headD 0) then []
         else b0 :: b1 :: ((rest.takeWhile fun b => !isCsiFinal b)
              ++ [(rest.dropWhile fun b => !isCsiFinal b).headD 0]))
        ++ sanitizeSpec strip (rest.dropWhile fun b => !isCsiFinal b).tail
    else b0 :: sanitizeSpec strip (b1 :: rest)
termination_by l => l.length
decreasing_by
  · have h1 : (rest.dropWhile fun b => !isCsiFinal b).length ≤ rest.length :=
      length_dropWhile_le' _ rest
    simp [List.length_tail]
    omega
  · simp

lemma sanitizeLoop_end (data : List Nat) (i : Nat) (h : data.length ≤ i) :
    sanitizeLoop data i = [] := by
  rw [sanitizeLoop, if_neg (by omega)]

lemma sanitizeLoop_other (data : List Nat) (i : Nat) (hi : i < data.length)
    (hesc : (data.getD i 0 == 0x1b && decide (i + 1 < data.length)
        && data.getD (i + 1) 0 == 0x5b) = false) :
    sanitizeLoop data i = data.getD i 0 :: sanitizeLoop data (i + 1) := by
  rw [sanitizeLoop, if_pos hi, if_neg (by rw [hesc]; simp)]

lemma sanitizeLoop_found (data : List Nat) (i j : Nat) (hi : i < data.length)
    (hesc : (data.getD i 0 == 0x1b && decide (i + 1 < data.length)
        && data.getD (i + 1) 0 == 0x5b) = true)
    (hj : findCsiFinal data (i + 2) = some j) :
    sanitizeLoop data i =
      (if is_status_query (data.getD j 0)
          || is_device_attr_query
               ((data.drop (i + 2)).take (j - (i + 2))) (data.getD j 0)
       then []
       else (data.drop i).take (j + 1 - i)) ++ sanitizeLoop data (j + 1) := by
  rw [sanitizeLoop, if_pos hi, if_pos hesc]
  split
  · rename_i j' heq
    rw [hj] at heq
    obtain rfl : j = j' := Option.some.inj heq
    rfl
  · rename_i heq
    rw [hj] at heq
    exact absurd heq (by simp)

lemma sanitizeLoop_truncated (data : List Nat) (i : Nat)
    (hi : i < data.length)
    (hesc : (data.getD i 0 == 0x1b && decide (i + 1 < data.length)
        && data.getD (i + 1) 0 == 0x5b) = true)
    (hj : findCsiFinal data (i + 2) = none) :
    sanitizeLoop data i = data.drop i := by
  rw [sanitizeLoop, if_pos hi, if_pos hesc]
  split
  · rename_i j' heq
    rw [hj] at heq
    exact absurd heq (by simp)
  · rfl

lemma sanitizeSpec_nil (strip : List Nat → Nat → Bool) :
    sanitizeSpec strip [] = [] := by
  rw [sanitizeSpec]

lemma sanitizeSpec_single (strip : List Nat → Nat → Bool) (b : Nat) :
    sanitizeSpec strip [b] = [b] := by
  rw [sanitizeSpec]

lemma sanitizeSpec_other (strip : List Nat → Nat → Bool) (b0 b1 : Nat)
    (rest : List Nat) (h : (b0 == 0x1b && b1 == 0x5b) = false) :
    sanitizeSpec strip (b0 :: b1 :: rest)
      = b0 :: sanitizeSpec strip (b1 :: rest) := by
  rw [sanitizeSpec, if_neg (by simp_all)]

lemma sanitizeSpec_csi_complete (strip : List Nat → Nat → Bool)
    (rest : List Nat) (fb : Nat) (rest2 : List Nat)
    (hd : (rest.dropWhile fun b => !isCsiFinal b) = fb :: rest2) :
    sanitizeSpec strip (0x1b :: 0x5b :: rest)
      = (if strip (rest.takeWhile fun b => !isCsiFinal b) fb then []
         else 0x1b :: 0x5b
           :: ((rest.takeWhile fun b => !isCsiFinal b) ++ [fb]))
        ++ sanitizeSpec strip rest2 := by
  rw [sanitizeSpec, if_pos (by simp), if_neg (by simp [hd]), hd]
  rfl

lemma sanitizeSpec_csi_truncated (strip : List Nat → Nat → Bool)
    (rest : List Nat) (hd : (rest.dropWhile fun b => !isCsiFinal b) = []) :
    sanitizeSpec strip (0x1b :: 0x5b :: rest) = 0x1b :: 0x5b :: rest := by
  rw [sanitizeSpec, if_pos (by simp), if_pos (by simp [hd])]

lemma drop_eq_getD_cons (data : List Nat) (i : Nat) (h : i < data.length) :
    data.drop i = data.getD i 0 :: data.drop (i + 1) := by
  rw [List.drop_eq_getElem_cons h, List.getD_eq_getElem _ _ h]

/-- The index-based inner scan agrees with `takeWhile`/`dropWhile` on the
corresponding suffix. -/
lemma scan_take_dropWhile (data : List Nat) (j : Nat) (hjlen : j < data.length)
    (hfin : isCsiFinal (data.getD j 0) = true) :
    ∀ n s, s ≤ j → j - s = n →
      (∀ m, s ≤ m → m < j → isCsiFinal (data.getD m 0) = false) →
      ((data.drop s).takeWhile fun b => !isCsiFinal b)
          = (data.drop s).take (j - s) ∧
        ((data.drop s).dropWhile fun b => !isCsiFinal b) = data.drop j := by
  intro n
  induction n with
  | zero =>
    intro s hsj hn _
    have hs : s = j := by omega
    rw [hs, drop_eq_getD_cons data j hjlen]
    constructor
    · rw [List.takeWhile_cons, hfin, if_neg (by simp), Nat.sub_self,
        List.take_zero]
    · rw [List.dropWhile_cons, hfin, if_neg (by simp)]
  | succ n ihn =>
    intro s hsj hn hmid
    have hs : s < j := by omega
    have hps : isCsiFinal (data.getD s 0) = false := hmid s (Nat.le_refl s) hs
    obtain ⟨ih1, ih2⟩ := ihn (s + 1) (by omega) (by omega)
      (fun m hm1 hm2 => hmid m (by omega) hm2)
    rw [drop_eq_getD_cons data s (by omega)]
    constructor
    · rw [List.takeWhile_cons]
      simp only [hps, Bool.not_false, if_true]
      rw [ih1, show j - s = (j - (s + 1)) + 1 by omega, List.take_succ_cons]
    · rw [List.dropWhile_cons]
      simp only [hps, Bool.not_false, if_true]
      exact ih2

lemma dropWhile_nil_of_all_nonfinal (data : List Nat) (s : Nat)
    (hall : ∀ m, s ≤ m → m < data.length → isCsiFinal (data.getD m 0) = false) :
    ((data.drop s).dropWhile fun b => !isCsiFinal b) = [] := by
  rw [List.dropWhile_eq_nil_iff]
  intro x hx
  obtain ⟨k, hk, hxk⟩ := List.mem_iff_getElem.mp hx
  have hsk : s + k < data.length := by
    simp only [List.length_drop] at hk
    omega
  have hxv : x = data.getD (s + k) 0 := by
    rw [← hxk, List.getD_eq_getElem _ _ hsk]
    exact (List.getElem_drop _).symm ▸ rfl
  have h2 : isCsiFinal x = false := by
    rw [hxv]
    exact hall (s + k) (by omega) hsk
  simp [h2]

/-- The byte kept for a complete non-query CSI is the same slice whichever
way it is computed. -/
lemma keep_slice_eq (data : List Nat) (i j : Nat)
    (hij : i + 2 ≤ j) (hj : j < data.length) :
    List.take (j + 1 - i) (27 :: 91 :: data.drop (i + 2))
      = 27 :: 91 :: ((data.drop (i + 2)).take (j - (i + 2))
          ++ [data.getD j 0]) := by
  rw [show j + 1 - i = ((j - (i + 2)) + 1) + 1 + 1 by omega,
    List.take_succ_cons, List.take_succ_cons, List.take_succ]
  have hix : (data.drop (i + 2))[j - (i + 2)]? = some (data.getD j 0) := by
    rw [List.getElem?_drop, show i + 2 + (j - (i + 2)) = j by omega,
      List.getElem?_eq_getElem hj, List.getD_eq_getElem _ _ hj]
  rw [hix]
  rfl

/-- The sanitizer loop from any position agrees with the reference
sanitizer on the corresponding suffix. -/
lemma sanitizeLoop_eq_spec (data : List Nat) (i : Nat) :
    sanitizeLoop data i = sanitizeSpec strippedQuery (data.drop i) := by
  generalize hn : data.length - i = n
  induction n using Nat.strong_induction_on generalizing i with
  | _ n ih =>
  by_cases hi : i < data.length
  · by_cases hesc : (data.getD i 0 == 0x1b && decide (i + 1 < data.length)
        && data.getD (i + 1) 0 == 0x5b) = true
    · have hesc' := hesc
      simp only [Bool.and_eq_true, beq_iff_eq, decide_eq_true_eq] at hesc'
      obtain ⟨⟨h27, hi1⟩, h91⟩ := hesc'
      have hd : data.drop i = 27 :: 91 :: data.drop (i + 2) := by
        rw [drop_eq_getD_cons data i hi, drop_eq_getD_cons data (i + 1) hi1,
          h27, h91, show i + 1 + 1 = i + 2 from rfl]
      cases hjc : findCsiFinal data (i + 2) with
      | some j =>
        obtain ⟨hj1, hj2, hj3, hj4⟩ := findCsiFinal_some data (i + 2) j hjc
        obtain ⟨htw, hdw⟩ := scan_take_dropWhile data j hj2 hj3 (j - (i + 2))
          (i + 2) hj1 rfl hj4
        rw [sanitizeLoop_found data i j hi hesc hjc, hd]
        rw [sanitizeSpec_csi_complete strippedQuery (data.drop (i + 2))
          (data.getD j 0) (data.drop (j + 1))
          (by rw [hdw, drop_eq_getD_cons data j hj2])]
        rw [ih (data.length - (j + 1)) (by omega) (j + 1) rfl]
        congr 1
        rw [htw]
        simp only [is_status_query, is_device_attr_query, strippedQuery]
        congr 1
        rw [keep_slice_eq data i j hj1 hj2]
      | none =>
        rw [sanitizeLoop_truncated data i hi hesc hjc, hd]
        rw [sanitizeSpec_csi_truncated strippedQuery _
          (dropWhile_nil_of_all_nonfinal data (i + 2)
            (findCsiFinal_none data (i + 2) hjc))]
    · have hesc2 : (data.getD i 0 == 0x1b && decide (i + 1 < data.length)
          && data.getD (i + 1) 0 == 0x5b) = false :=
        Bool.eq_false_iff.mpr hesc
      rw [sanitizeLoop_other data i hi hesc2]
      rw [drop_eq_getD_cons data i hi]
      by_cases hi1 : i + 1 < data.length
      · rw [drop_eq_getD_cons data (i + 1) hi1]
        rw [sanitizeSpec_other strippedQuery _ _ _ (by
          have hc := hesc2
          have hdec : decide (i + 1 < data.length) = true := by simp [hi1]
          simp only [hdec, Bool.and_true] at hc
          simpa using hc)]
        rw [ih (data.length - (i + 1)) (by omega) (i + 1) rfl,
          drop_eq_getD_cons data (i + 1) hi1]
      · rw [List.drop_eq_nil_of_le (by omega), sanitizeSpec_single,
          sanitizeLoop_end data (i + 1) (by omega)]
  · rw [sanitizeLoop_end data i (by omega),
      List.drop_eq_nil_of_le (by omega), sanitizeSpec_nil]

lemma sanitize_strips_dsr_query :
    sanitize_scrollback_for_replay [27, 91, 54, 110] = [] := by
  have f1 : findCsiFinal [27, 91, 54, 110] 2 = some 3 := by
    rw [findCsiFinal]
    norm_num [isCsiFinal]
    rw [findCsiFinal]
    norm_num [isCsiFinal]
  rw [sanitize_scrollback_for_replay,
    sanitizeLoop_found _ 0 3 (by decide) (by decide) f1,
    sanitizeLoop_end _ 4 (by decide)]
  decide

lemma sanitize_keeps_non_query_csi :
    sanitize_scrollback_for_replay
      [104, 101, 108, 108, 111, 27, 91, 63, 50, 53, 108,
       119, 111, 114, 108, 100]
    = [104, 101, 108, 108, 111, 27, 91, 63, 50, 53, 108,
       119, 111, 114, 108, 100] := by
  have f1 : findCsiFinal
      [104, 101, 108, 108, 111, 27, 91, 63, 50, 53, 108,
       119, 111, 114, 108, 100] 7 = some 10 := by
    rw [findCsiFinal]
    norm_num [isCsiFinal]
    rw [findCsiFinal]
    norm_num [isCsiFinal]
    rw [findCsiFinal]
    norm_num [isCsiFinal]
    rw [findCsiFinal]
    norm_num [isCsiFinal]
  rw [sanitize_scrollback_for_replay,
    sanitizeLoop_other _ 0 (by decide) (by decide)]
  norm_num
  rw [sanitizeLoop_other _ 1 (by decide) (by decide)]
  norm_num
  rw [sanitizeLoop_other _ 2 (by decide) (by decide)]
  norm_num
  rw [sanitizeLoop_other _ 3 (by decide) (by decide)]
  norm_num
  rw [sanitizeLoop_other _ 4 (by decide) (by decide)]
  norm_num
  rw [sanitizeLoop_found _ 5 10 (by decide) (by decide) f1]
  norm_num [is_status_query, is_device_attr_query]
  rw [sanitizeLoop_other _ 11 (by decide) (by decide)]
  norm_num
  rw [sanitizeLoop_other _ 12 (by decide) (by decide)]
  norm_num
  rw [sanitizeLoop_other _ 13 (by decide) (by decide)]
  norm_num
  rw [sanitizeLoop_other _ 14 (by decide) (by decide)]
  norm_num
  rw [sanitizeLoop_other _ 15 (by decide) (by decide)]
  norm_num
  rw [sanitizeLoop_end _ 16 (by decide)]

lemma sanitize_strips_da_query :
    sanitize_scrollback_for_replay [27, 91, 62, 99] = [] := by
  have f1 : findCsiFinal [27, 91, 62, 99] 2 = some 3 := by
    rw [findCsiFinal]
    norm_num [isCsiFinal]
    rw [findCsiFinal]
    norm_num [isCsiFinal]
  rw [sanitize_scrollback_for_replay,
    sanitizeLoop_found _ 0 3 (by decide) (by decide) f1,
    sanitizeLoop_end _ 4 (by decide)]
  decide

lemma sanitize_keeps_numeric_da :
    sanitize_scrollback_for_replay [27, 91, 49, 99] = [27, 91, 49, 99] := by
  have f1 : findCsiFinal [27, 91, 49, 99] 2 = some 3 := by
    rw [findCsiFinal]
    norm_num [isCsiFinal]
    rw [findCsiFinal]
    norm_num [isCsiFinal]
  rw [sanitize_scrollback_for_replay,
    sanitizeLoop_found _ 0 3 (by decide) (by decide) f1,
    sanitizeLoop_end _ 4 (by decide)]
  decide

lemma claimed_rule_strips_numeric_da :
    sanitizeSpec claimedQuery [27, 91, 49, 99] = [] := by
  have hdw : ([49, 99].dropWhile fun b => !isCsiFinal b) = [99] := by decide
  rw [show ([27, 91, 49, 99] : List Nat) = 27 :: 91 :: [49, 99] from rfl,
    sanitizeSpec_csi_complete claimedQuery [49, 99] 99 [] hdw,
    sanitizeSpec_nil]
  decide

/-- C1 counterexample: on `b"\x1b[1c"` — a complete CSI sequence whose
final byte is `c` — the sanitizer and the claim's stated rule (strip every
complete CSI with final byte `n` or `c`) disagree: the code keeps the
sequence because its parameter bytes are `"1"`, neither empty nor starting
with `>` or `?`. -/
theorem sanitize_scrollback_claim_counterexample :
    sanitize_scrollback_for_replay [27, 91, 49, 99]
        ≠ sanitizeSpec claimedQuery [27, 91, 49, 99] ∧
    sanitize_scrollback_for_replay [27, 91, 49, 99] = [27, 91, 49, 99] ∧
    sanitizeSpec claimedQuery [27, 91, 49, 99] = [] := by
  refine ⟨?_, sanitize_keeps_numeric_da, claimed_rule_strips_numeric_da⟩
  rw [sanitize_keeps_numeric_da, claimed_rule_strips_numeric_da]
  decide

/-- C1 (amended): the scrollback replay sanitizer removes exactly those
complete CSI sequences (ESC `[`, parameter bytes, then a final byte in
`0x40..=0x7e`) whose final byte is `n`, or whose final byte is `c` with
parameter bytes empty or starting with `>` or `?`; all other bytes,
non-query CSI sequences included, pass through unchanged, and a truncated
CSI at the end of the buffer is preserved verbatim.  In particular
`b"\x1b[6n"` sanitizes to empty, `b"hello\x1b[?25lworld"` is unchanged and
`b"\x1b[>c"` is stripped. -/
theorem sanitize_scrollback_characterization :
    (∀ data : List Nat,
      sanitize_scrollback_for_replay data = sanitizeSpec strippedQuery data) ∧
    sanitize_scrollback_for_replay [27, 91, 54, 110] = [] ∧
    sanitize_scrollback_for_replay
        [104, 101, 108, 108, 111, 27, 91, 63, 50, 53, 108,
         119, 111, 114, 108, 100]
      = [104, 101, 108, 108, 111, 27, 91, 63, 50, 53, 108,
         119, 111, 114, 108, 100] ∧
    sanitize_scrollback_for_replay [27, 91, 62, 99] = [] := by
  refine ⟨?_, sanitize_strips_dsr_query, sanitize_keeps_non_query_csi,
    sanitize_strips_da_query⟩
  intro data
  rw [sanitize_scrollback_for_replay, sanitizeLoop_eq_spec, List.drop_zero]

/-! ## Client frame parsing (src/server.rs,
`Server::process_client_recv_buf`) -/

/-- The effect of one dispatched client frame on the pty session. -/
inductive PtyAction where
  | writePty (data : List Nat)
  | resize (cols rows : Nat)
deriving DecidableEq

/-- The `match msg_type` dispatch of `Server::process_client_recv_buf`:
INPUT writes the payload to the pty; RESIZE resizes from the first four
payload bytes when the payload holds at least four; DETACH is a no-op;
unknown types are logged and dropped. -/
def dispatchFrame (msg_type : Nat) (payload : List Nat) : List PtyAction :=
  if msg_type = client.INPUT then [.writePty payload]
  else if msg_type = client.RESIZE then
    if 4 ≤ payload.length then
      [.resize (decode_resize (payload.take 4)).1
        (decode_resize (payload.take 4)).2]
    else []
  else []

/-- The `while offset + HEADER_SIZE <= recv_buf.len()` loop of
`Server::process_client_recv_buf`: returns the pty actions performed and
the final offset. -/
def processLoop (buf : List Nat) (offset : Nat) : List PtyAction × Nat :=
  if h : offset + HEADER_SIZE ≤ buf.length then
    if buf.length
        < offset + HEADER_SIZE
            + (decode_header ((buf.drop offset).take HEADER_SIZE)).2 then
      ([], offset)
    else
      (dispatchFrame (decode_header ((buf.drop offset).take HEADER_SIZE)).1
          ((buf.drop (offset + HEADER_SIZE)).take
            (decode_header ((buf.drop offset).take HEADER_SIZE)).2)
        ++ (processLoop buf (offset + HEADER_SIZE
              + (decode_header ((buf.drop offset).take HEADER_SIZE)).2)).1,
       (processLoop buf (offset + HEADER_SIZE
          + (decode_header ((buf.drop offset).take HEADER_SIZE)).2)).2)
  else ([], offset)
termination_by buf.length - offset
decreasing_by simp [HEADER_SIZE] at *; omega

/-- `Server::process_client_recv_buf` restricted to its parsing effect:
the pty actions performed, and the bytes put back into the client's buffer
(`recv_buf.drain(..offset)`). -/
def Server.process_client_recv_buf (recv_buf : List Nat) :
    List PtyAction × List Nat :=
  (( processLoop recv_buf 0).1, recv_buf.drop (processLoop recv_buf 0).2)

/-- The declared payload length of the frame at the head of a buffer. -/
def declaredLen (buf : List Nat) : Nat :=
  leU32 (buf.getD 1 0) (buf.getD 2 0) (buf.getD 3 0) (buf.getD 4 0)

/-- Whether a buffer starts with a complete frame: a full 5-byte header
plus the whole declared payload. -/
def hasCompleteFrame (buf : List Nat) : Bool :=
  decide (HEADER_SIZE ≤ buf.length)
    && decide (HEADER_SIZE + declaredLen buf ≤ buf.length)

/-- Reference parser written from the spec sentence: while the buffer
contains a complete frame, consume it and dispatch it; leftover
partial-frame bytes stay in the buffer. -/
def parseFramesSpec (buf : List Nat) : List PtyAction × List Nat :=
  if h : HEADER_SIZE ≤ buf.length then
    if HEADER_SIZE + declaredLen buf ≤ buf.length then
      (dispatchFrame (buf.getD 0 0)
          ((buf.drop HEADER_SIZE).take (declaredLen buf))
        ++ (parseFramesSpec (buf.drop (HEADER_SIZE + declaredLen buf))).1,
       (parseFramesSpec (buf.drop (HEADER_SIZE + declaredLen buf))).2)
    else ([], buf)
  else ([], buf)
termination_by buf.length
decreasing_by simp only [HEADER_SIZE, List.length_drop] at *; omega

lemma decode_header_take (l : List Nat) :
    decode_header (l.take HEADER_SIZE) = (l.getD 0 0, declaredLen l) := by
  rw [decode_header, declaredLen]
  rw [getD_take_lt _ _ _ (by norm_num [HEADER_SIZE]),
    getD_take_lt _ _ _ (by norm_num [HEADER_SIZE]),
    getD_take_lt _ _ _ (by norm_num [HEADER_SIZE]),
    getD_take_lt _ _ _ (by norm_num [HEADER_SIZE]),
    getD_take_lt _ _ _ (by norm_num [HEADER_SIZE])]

lemma declaredLen_drop (buf : List Nat) (offset : Nat) :
    declaredLen (buf.drop offset)
      = leU32 (buf.getD (offset + 1) 0) (buf.getD (offset + 2) 0)
          (buf.getD (offset + 3) 0) (buf.getD (offset + 4) 0) := by
  rw [declaredLen, getD_drop, getD_drop, getD_drop, getD_drop]

/-- The offset-based loop agrees with the reference parser on the
corresponding suffix. -/
lemma processLoop_eq_spec (buf : List Nat) (offset : Nat) :
    (processLoop buf offset).1 = (parseFramesSpec (buf.drop offset)).1 ∧
    buf.drop (processLoop buf offset).2
      = (parseFramesSpec (buf.drop offset)).2 := by
  generalize hn : buf.length - offset = n
  induction n using Nat.strong_induction_on generalizing offset with
  | _ n ih =>
  rw [processLoop, parseFramesSpec]
  rw [decode_header_take]
  by_cases h5 : offset + HEADER_SIZE ≤ buf.length
  · rw [dif_pos h5, dif_pos (show HEADER_SIZE ≤ (buf.drop offset).length by
      simp; omega)]
    by_cases hfull :
        buf.length < offset + HEADER_SIZE + declaredLen (buf.drop offset)
    · rw [if_pos hfull, if_neg (by simp; omega)]
      exact ⟨rfl, rfl⟩
    · rw [if_neg hfull, if_pos (by simp; omega)]
      have hrec := ih (buf.length
          - (offset + HEADER_SIZE + declaredLen (buf.drop offset)))
        (by simp [HEADER_SIZE] at *; omega)
        (offset + HEADER_SIZE + declaredLen (buf.drop offset)) rfl
      have hdd : (buf.drop offset).drop
            (HEADER_SIZE + declaredLen (buf.drop offset))
          = buf.drop (offset + HEADER_SIZE + declaredLen (buf.drop offset)) := by
        rw [List.drop_drop]
        congr 1
        omega
      have hpay : (buf.drop offset).drop HEADER_SIZE
          = buf.drop (offset + HEADER_SIZE) := by
        rw [List.drop_drop]
      constructor
      · rw [hdd, hrec.1, hpay]
      · rw [hdd, hrec.2]
  · rw [dif_neg h5, dif_neg (show ¬ HEADER_SIZE ≤ (buf.drop offset).length by
      simp only [HEADER_SIZE, List.length_drop] at h5 ⊢
      omega)]
    exact ⟨rfl, rfl⟩

/-- The reference parser is maximal: its leftover holds no complete
frame. -/
lemma parseFramesSpec_leftover (buf : List Nat) :
    hasCompleteFrame (parseFramesSpec buf).2 = false := by
  generalize hn : buf.length = n
  induction n using Nat.strong_induction_on generalizing buf with
  | _ n ih =>
  rw [parseFramesSpec]
  by_cases h5 : HEADER_SIZE ≤ buf.length
  · rw [dif_pos h5]
    by_cases hfull : HEADER_SIZE + declaredLen buf ≤ buf.length
    · rw [if_pos hfull]
      exact ih (buf.drop (HEADER_SIZE + declaredLen buf)).length
        (by simp [HEADER_SIZE] at *; omega) _ rfl
    · rw [if_neg hfull]
      simp only [hasCompleteFrame]
      rw [Bool.and_eq_false_iff]
      right
      simp
      omega
  · rw [dif_neg h5]
    simp only [hasCompleteFrame]
    rw [Bool.and_eq_false_iff]
    left
    simp
    omega

/-- C6: the server's client-input processing parses the inbound buffer
greedily — while the buffer holds a complete frame (5-byte header plus full
payload) it consumes it and dispatches by type (INPUT writes the payload to
the pty; RESIZE resizes if and only if the payload is at least 4 bytes,
using its first 4; DETACH does nothing; unknown types are dropped without
affecting the stream) — and the bytes of a trailing incomplete frame remain
in the buffer unconsumed. -/
theorem process_client_recv_buf_greedy :
    (∀ recv_buf : List Nat,
      Server.process_client_recv_buf recv_buf = parseFramesSpec recv_buf) ∧
    (∀ recv_buf : List Nat,
      hasCompleteFrame (Server.process_client_recv_buf recv_buf).2 = false) ∧
    (∀ p : List Nat, dispatchFrame client.INPUT p = [.writePty p]) ∧
    (∀ p : List Nat, 4 ≤ p.length →
      dispatchFrame client.RESIZE p
        = [.resize (decode_resize (p.take 4)).1
            (decode_resize (p.take 4)).2]) ∧
    (∀ p : List Nat, p.length < 4 → dispatchFrame client.RESIZE p = []) ∧
    (∀ p : List Nat, dispatchFrame client.DETACH p = []) ∧
    (∀ t : Nat, ∀ p : List Nat, t ≠ client.INPUT → t ≠ client.RESIZE →
      dispatchFrame t p = []) := by
  refine ⟨?_, ?_, ?_, ?_, ?_, ?_, ?_⟩
  · intro recv_buf
    have h := processLoop_eq_spec recv_buf 0
    rw [List.drop_zero] at h
    rw [Server.process_client_recv_buf]
    exact Prod.ext h.1 h.2
  · intro recv_buf
    have h := processLoop_eq_spec recv_buf 0
    rw [List.drop_zero] at h
    show hasCompleteFrame (recv_buf.drop (processLoop recv_buf 0).2) = false
    rw [h.2]
    exact parseFramesSpec_leftover recv_buf
  · intro p
    rw [dispatchFrame, if_pos rfl]
  · intro p hp
    rw [dispatchFrame, if_neg (by norm_num [client.INPUT, client.RESIZE]),
      if_pos rfl, if_pos hp]
  · intro p hp
    rw [dispatchFrame, if_neg (by norm_num [client.INPUT, client.RESIZE]),
      if_pos rfl, if_neg (by omega)]
  · intro p
    rw [dispatchFrame, if_neg (by norm_num [client.INPUT, client.DETACH]),
      if_neg (by norm_num [client.RESIZE, client.DETACH])]
  · intro t p h1 h2
    rw [dispatchFrame, if_neg h1, if_neg h2]

/-- Witness for C6: a buffer holding one complete INPUT frame followed by a
truncated header, and each dispatch case at a concrete frame. -/
theorem process_client_recv_buf_greedy_witness :
    Server.process_client_recv_buf [1, 2, 0, 0, 0, 104, 105, 2, 1]
      = parseFramesSpec [1, 2, 0, 0, 0, 104, 105, 2, 1] ∧
    hasCompleteFrame
        (Server.process_client_recv_buf [1, 2, 0, 0, 0, 104, 105, 2, 1]).2
      = false ∧
    dispatchFrame client.INPUT [104, 105] = [.writePty [104, 105]] ∧
    (4 ≤ ([120, 0, 40, 0] : List Nat).length ∧
      dispatchFrame client.RESIZE [120, 0, 40, 0]
        = [.resize (decode_resize ([120, 0, 40, 0].take 4)).1
            (decode_resize ([120, 0, 40, 0].take 4)).2]) ∧
    (([1, 2] : List Nat).length < 4 ∧
      dispatchFrame client.RESIZE [1, 2] = []) ∧
    dispatchFrame client.DETACH [7] = [] ∧
    ((99 : Nat) ≠ client.INPUT ∧ (99 : Nat) ≠ client.RESIZE ∧
      dispatchFrame 99 [1] = []) :=
  ⟨process_client_recv_buf_greedy.1 _,
   process_client_recv_buf_greedy.2.1 _,
   process_client_recv_buf_greedy.2.2.1 _,
   ⟨by decide, process_client_recv_buf_greedy.2.2.2.1 _ (by decide)⟩,
   ⟨by decide, process_client_recv_buf_greedy.2.2.2.2.1 _ (by decide)⟩,
   process_client_recv_buf_greedy.2.2.2.2.2.1 _,
   ⟨by decide, by decide,
    process_client_recv_buf_greedy.2.2.2.2.2.2 99 [1] (by decide)
      (by decide)⟩⟩

/-! ## Session exit detection (src/session.rs, `Session::check_exit`) -/

/-- The outcome of the non-blocking `waitpid(WNOHANG)` call: the child
exited normally, was killed by a signal, or anything else (still running,
stopped, ...). -/
inductive WaitStatus where
  | exited (code : Int)
  | signaled (sig : Int)
  | other
deriving DecidableEq

/-- `Session::check_exit`, as a function of the cached `exited` slot and
the `waitpid` observation `w`: returns the reported code (if any) together
with the new slot value. A normal exit reports the exit status; a
signal-killed child reports `128 + signo`; anything else reports nothing. -/
def Session.check_exit (exited : Option Int) (w : WaitStatus) :
    Option Int × Option Int :=
  match exited with
  | some v => (some v, some v)
  | none =>
    match w with
    | .exited code => (some code, some code)
    | .signaled sig => (some (128 + sig), some (128 + sig))
    | .other => (none, none)

/-- C7: `check_exit` is idempotent — once a call returns `some v`, the slot
holds `v` and every later call returns `some v` whatever `waitpid` then
observes — and a normally exited child yields its exit status while a
signal-killed child yields `128 + signo`. -/
theorem check_exit_idempotent :
    (∀ (e : Option Int) (w1 w2 : WaitStatus) (v : Int),
      (Session.check_exit e w1).1 = some v →
        (Session.check_exit e w1).2 = some v ∧
        Session.check_exit (Session.check_exit e w1).2 w2
          = (some v, some v)) ∧
    (∀ code : Int,
      Session.check_exit none (.exited code) = (some code, some code)) ∧
    (∀ sig : Int,
      Session.check_exit none (.signaled sig)
        = (some (128 + sig), some (128 + sig))) := by
  refine ⟨?_, fun code => rfl, fun sig => rfl⟩
  intro e w1 w2 v h
  match e, w1 with
  | some u, _ =>
    simp only [Session.check_exit] at h ⊢
    obtain rfl : u = v := Option.some.inj h
    exact ⟨rfl, rfl⟩
  | none, .exited code =>
    simp only [Session.check_exit] at h ⊢
    obtain rfl : code = v := Option.some.inj h
    exact ⟨rfl, rfl⟩
  | none, .signaled sig =>
    simp only [Session.check_exit] at h ⊢
    obtain rfl : 128 + sig = v := Option.some.inj h
    exact ⟨rfl, rfl⟩
  | none, .other =>
    simp only [Session.check_exit] at h
    exact absurd h (by simp)

/-- Witness for C7 at a freshly exited child with status 3, re-polled. -/
theorem check_exit_idempotent_witness :
    ((Session.check_exit none (.exited 3)).1 = some 3 →
      (Session.check_exit none (.exited 3)).2 = some 3 ∧
      Session.check_exit (Session.check_exit none (.exited 3)).2 .other
        = (some 3, some 3)) ∧
    (Session.check_exit none (.exited 3)).1 = some 3 :=
  ⟨check_exit_idempotent.1 none (.exited 3) .other 3, rfl⟩

/-- `check_exit` reports a code exactly when it stores one, and they
agree. -/
lemma check_exit_fst_snd (e : Option Int) (w : WaitStatus) :
    ((Session.check_exit e w).1 = none ∧ (Session.check_exit e w).2 = none)
      ∨ ∃ u, (Session.check_exit e w).1 = some u ∧
          (Session.check_exit e w).2 = some u := by
  match e, w with
  | some v, _ => exact Or.inr ⟨v, rfl, rfl⟩
  | none, .exited code => exact Or.inr ⟨code, rfl, rfl⟩
  | none, .signaled sig => exact Or.inr ⟨128 + sig, rfl, rfl⟩
  | none, .other => exact Or.inl ⟨rfl, rfl⟩

/-! ## Server main loop (src/server.rs, `Server::run` and
`Server::flush_client_send_buf`): per-client byte delivery and exit
notification -/

/-- Little-endian bytes of an `i32` (`i32::to_le_bytes`), two's
complement. -/
def i32ToLeBytes (v : Int) : List Nat :=
  u32ToLeBytes ((v % 4294967296).toNat)

/-- One client connection as the server sees it: the pending `send_buf`
and the bytes already accepted by the client's stream, in order. -/
structure ClientConn where
  send_buf : List Nat
  wire : List Nat
deriving DecidableEq

/-- `client.send_buf.extend_from_slice(&msg)`: enqueue outbound bytes. -/
def ClientConn.enqueue (c : ClientConn) (msg : List Nat) : ClientConn :=
  ⟨c.send_buf ++ msg, c.wire⟩

/-- One `client.stream.write(&client.send_buf)` returning `Ok(n)` —
the stream accepts the first `n` pending bytes — followed by
`send_buf.drain(..n)`. -/
def ClientConn.writeStep (c : ClientConn) (n : Nat) : ClientConn :=
  ⟨c.send_buf.drop (min n c.send_buf.length),
   c.wire ++ c.send_buf.take (min n c.send_buf.length)⟩

/-- The `while !client.send_buf.is_empty()` loop of
`Server::flush_client_send_buf`: perform write steps until the buffer is
empty, the stream would block (end of the oracle list), or a write returns
`Ok(0)` (treated as an error; the client is dropped). -/
def ClientConn.flush (c : ClientConn) : List Nat → ClientConn
  | [] => c
  | n :: ns =>
    if c.send_buf.isEmpty then c
    else if n = 0 then c
    else (c.writeStep n).flush ns

/-- The EXIT notification path of `Server::run`:
`client.stream.write_all(&msg)` writes directly to the stream, bypassing
`send_buf`. -/
def ClientConn.directWrite (c : ClientConn) (msg : List Nat) : ClientConn :=
  ⟨c.send_buf, c.wire ++ msg⟩

/-- FIFO delivery: the bytes on the wire followed by the pending bytes are
exactly the bytes enqueued for this client, in order. -/
def FifoOrdered (enqueued : List Nat) (c : ClientConn) : Prop :=
  c.wire ++ c.send_buf = enqueued

lemma fifo_enqueue (enqueued : List Nat) (c : ClientConn) (msg : List Nat)
    (h : FifoOrdered enqueued c) :
    FifoOrdered (enqueued ++ msg) (c.enqueue msg) := by
  unfold FifoOrdered ClientConn.enqueue at *
  simp only []
  rw [← List.append_assoc, h]

lemma fifo_writeStep (enqueued : List Nat) (c : ClientConn) (n : Nat)
    (h : FifoOrdered enqueued c) :
    FifoOrdered enqueued (c.writeStep n) := by
  unfold FifoOrdered ClientConn.writeStep at *
  simp only []
  rw [List.append_assoc, List.take_append_drop, h]

lemma fifo_flush (c : ClientConn) (ns : List Nat) (enqueued : List Nat)
    (h : FifoOrdered enqueued c) :
    FifoOrdered enqueued (c.flush ns) := by
  induction ns generalizing c with
  | nil => exact h
  | cons n ns ih =>
    rw [ClientConn.flush]
    by_cases h1 : c.send_buf.isEmpty
    · rw [if_pos h1]; exact h
    · rw [if_neg h1]
      by_cases h2 : n = 0
      · rw [if_pos h2]; exact h
      · rw [if_neg h2]
        exact ih _ (fifo_writeStep enqueued c n h)

/-- C3: the EXIT frame is written with `write_all` directly to the stream
(server.rs:162), bypassing the client's pending `send_buf`.  A client whose
OUTPUT frame was only partially flushed (the stream accepted one byte and
then would block) receives the EXIT frame bytes before the still-pending
OUTPUT bytes: the wire is not a prefix of the enqueue order
SCROLLBACK/OUTPUT-then-EXIT, refuting the claimed ordering invariant on the
code. `enqueue`/`flush` alone do preserve FIFO order (`fifo_flush`). -/
theorem exit_write_bypasses_pending_output :
    ((((ClientConn.mk [] []).enqueue
          (encode server.OUTPUT [97, 98])).flush [1]).directWrite
        (encode server.EXIT (i32ToLeBytes 0))).wire
      ≠ (encode server.OUTPUT [97, 98]
          ++ encode server.EXIT (i32ToLeBytes 0)).take
          (((((ClientConn.mk [] []).enqueue
              (encode server.OUTPUT [97, 98])).flush [1]).directWrite
            (encode server.EXIT (i32ToLeBytes 0))).wire).length ∧
    ((((ClientConn.mk [] []).enqueue
          (encode server.OUTPUT [97, 98])).flush [1]).directWrite
        (encode server.EXIT (i32ToLeBytes 0))).send_buf ≠ [] := by
  decide

/-- The abstract state of `Server::run`'s exit handling. -/
structure LoopState where
  exited : Option Int
  clients : List Nat
  sent : List (Nat × List Nat)
  stopped : Bool
deriving DecidableEq

/-- The exit-check tail of one `Server::run` loop iteration: call
`check_exit` (with `w` the `waitpid` observation of this tick); when it
reports a code, write an EXIT frame to every connected client and break if
the client set is empty; otherwise continue. -/
def LoopState.tick (s : LoopState) (w : WaitStatus) : LoopState :=
  if s.stopped then s
  else
    match h : (Session.check_exit s.exited w).1 with
    | some v =>
      ⟨(Session.check_exit s.exited w).2, s.clients,
       s.sent ++ s.clients.map
         (fun c => (c, encode server.EXIT (i32ToLeBytes v))),
       s.clients.isEmpty⟩
    | none => ⟨(Session.check_exit s.exited w).2, s.clients, s.sent, false⟩

/-- A run of the loop over a sequence of `waitpid` observations. -/
def LoopState.run (s : LoopState) (ws : List WaitStatus) : LoopState :=
  ws.foldl LoopState.tick s

/-- C4 counterexample: with one client that stays connected, the EXIT frame
is written again on the tick after the first observation of exit
(`check_exit` keeps returning `some` and `Server::run` re-enters the
notification branch each tick), so the client receives two EXIT frames. -/
theorem exit_frame_resent_on_later_tick :
    (LoopState.run ⟨none, [0], [], false⟩ [.exited 0, .other]).sent
      = [(0, encode server.EXIT (i32ToLeBytes 0)),
         (0, encode server.EXIT (i32ToLeBytes 0))] := by
  decide

/-- C4 (amended): on the first tick at which `check_exit` reports the exit
— and on every later tick while the loop still runs — one EXIT frame
carrying the little-endian exit code is written to every currently
connected client, and the loop breaks if and only if the client set is
empty at such a tick; on ticks where `check_exit` reports nothing, no EXIT
frame is written. -/
theorem exit_notification_every_tick :
    (∀ (s : LoopState) (w : WaitStatus) (v : Int),
      s.stopped = false →
      (Session.check_exit s.exited w).1 = some v →
      (s.tick w).sent = s.sent ++ s.clients.map
          (fun c => (c, encode server.EXIT (i32ToLeBytes v))) ∧
      (s.tick w).stopped = s.clients.isEmpty ∧
      (s.tick w).exited = some v ∧
      (s.tick w).clients = s.clients) ∧
    (∀ (s : LoopState) (w : WaitStatus),
      s.stopped = false →
      (Session.check_exit s.exited w).1 = none →
      (s.tick w).sent = s.sent ∧ (s.tick w).stopped = false) := by
  constructor
  · intro s w v hrun hv
    rw [LoopState.tick, if_neg (by rw [hrun]; simp)]
    split
    · rename_i v' heq
      rw [hv] at heq
      obtain rfl : v = v' := Option.some.inj heq
      refine ⟨rfl, rfl, ?_, rfl⟩
      show (Session.check_exit s.exited w).2 = some v
      rcases check_exit_fst_snd s.exited w with h | ⟨u, h1, h2⟩
      · rw [h.1] at hv; exact absurd hv (by simp)
      · rw [h1] at hv
        rw [h2, ← Option.some.inj hv]
    · rename_i heq
      rw [hv] at heq
      exact absurd heq (by simp)
  · intro s w hrun hv
    rw [LoopState.tick, if_neg (by rw [hrun]; simp)]
    split
    · rename_i v' heq
      rw [hv] at heq
      exact absurd heq (by simp)
    · exact ⟨rfl, rfl⟩

/-- Witness for C4 (amended): one connected client, child exits with
status 0. -/
theorem exit_notification_every_tick_witness :
    ((LoopState.mk none [0] [] false).stopped = false ∧
      (Session.check_exit none WaitStatus.other).1 = none ∧
      ((LoopState.mk none [0] [] false).tick .other).sent = [] ∧
      ((LoopState.mk none [0] [] false).tick .other).stopped = false) ∧
    ((Session.check_exit none (.exited 0)).1 = some 0 ∧
      ((LoopState.mk none [0] [] false).tick (.exited 0)).sent
        = [] ++ [0].map (fun c => (c, encode server.EXIT (i32ToLeBytes 0))) ∧
      ((LoopState.mk none [0] [] false).tick (.exited 0)).stopped
        = ([0] : List Nat).isEmpty) := by
  constructor
  · have h := exit_notification_every_tick.2 ⟨none, [0], [], false⟩ .other
      rfl rfl
    exact ⟨rfl, rfl, h.1, h.2⟩
  · have h := exit_notification_every_tick.1 ⟨none, [0], [], false⟩
      (.exited 0) 0 rfl rfl
    exact ⟨rfl, h.1, h.2.1⟩

/-! ## Bridge (src/bridge.rs, `run`): frames sent on the socket -/

/-- The poll events that make the bridge send frames: readable stdin data
(sent as INPUT), stdin end-of-file (DETACH, then leave the loop), and a
SIGWINCH wake whose window-size query succeeded (RESIZE). -/
inductive BridgeEv where
  | stdinData (bytes : List Nat)
  | stdinEof
  | winch (cols rows : Nat)
deriving DecidableEq

/-- The frames the bridge main loop sends for a stream of events, ending
with the final DETACH sent after leaving the loop (stdin EOF sends its own
DETACH first and then leaves). -/
def bridgeEventFrames : List BridgeEv → List (List Nat)
  | [] => [encode client.DETACH []]
  | .stdinData b :: evs => encode client.INPUT b :: bridgeEventFrames evs
  | .stdinEof :: _ => [encode client.DETACH [], encode client.DETACH []]
  | .winch c r :: evs =>
      encode client.RESIZE (encode_resize c r) :: bridgeEventFrames evs

/-- All frames `run` sends on the socket after connecting: the initial
RESIZE is sent only when the `TIOCGWINSZ` query on stdout succeeds
(`if let Ok((cols, rows)) = get_winsize(stdout_fd)`, bridge.rs:152), then
the loop's frames. -/
def bridgeSentFrames (winsize : Option (Nat × Nat)) (evs : List BridgeEv) :
    List (List Nat) :=
  (match winsize with
   | some (c, r) => [encode client.RESIZE (encode_resize c r)]
   | none => []) ++ bridgeEventFrames evs

/-- C8 counterexample: when the initial window-size query fails (stdout not
a terminal), no RESIZE is sent and the first frame on the socket is an
INPUT frame — its type byte is INPUT, not RESIZE — refuting "in every run
the first frame sent is RESIZE". -/
theorem bridge_first_frame_not_resize_without_winsize :
    ((bridgeSentFrames none [.stdinData [97]]).headD []).headD 0
        = client.INPUT ∧
    client.INPUT ≠ client.RESIZE ∧
    (bridgeSentFrames none [.stdinData [97]]).headD []
      = encode client.INPUT [97] := by
  decide

/-- C8 (amended): in every run of the bridge in which the initial
window-size query succeeds, the first frame sent on the socket after
connecting is a RESIZE frame carrying the queried terminal size, before
any INPUT or DETACH frame. -/
theorem bridge_first_frame_is_resize :
    ∀ (c r : Nat) (evs : List BridgeEv),
      bridgeSentFrames (some (c, r)) evs
        = encode client.RESIZE (encode_resize c r) :: bridgeEventFrames evs ∧
      (bridgeSentFrames (some (c, r)) evs).headD []
        = encode client.RESIZE (encode_resize c r) := by
  intro c r evs
  exact ⟨rfl, rfl⟩

end Pterm
